import Mathlib

/-!
Verification development for the blog-writer tool (`src/writer.py`).

Python strings are modelled as `List Char`; each Python string operation used
by the verified code paths (`split`, `strip`, `lower`, substring tests,
`replace`, `len(s.split())`) is given a faithful executable definition below,
and each source function under scrutiny (`save_to_history`, `generate_prompt`'s
keyword merge, `call_claude`'s retry loop, `ensure_word_count`,
`clean_article_for_display`, `revise_article`, `process_revision_colors`) is
translated line by line.  External generator responses are inputs (oracles):
`none` models the Python `None` returned by a failed `call_claude`.
-/

namespace BlogWriter

/-- Whitespace test matching Python `str.strip` / `str.split()` on the
ASCII range (space, tab, newline, carriage return, vertical tab, form feed). -/
def pyIsSpace (c : Char) : Bool :=
  c = ' ' || c = '\t' || c = '\n' || c = '\r' || c = '\x0b' || c = '\x0c'

/-- Python `str.lower`, character-wise. -/
def pyLower (s : List Char) : List Char := s.map Char.toLower

/-- Python substring test `pat in s`. -/
def pyContains (s pat : List Char) : Bool := decide (pat <:+: s)

/-- Python `s.endswith(pat)`. -/
def pyEndsWith (s pat : List Char) : Bool := decide (pat <:+ s)

/-- Python `s.strip()`: drop whitespace from both ends. -/
def pyStrip (s : List Char) : List Char :=
  ((s.dropWhile pyIsSpace).reverse.dropWhile pyIsSpace).reverse

/-- Python `s.split(sep)` for a one-character separator `sep`. -/
def splitOnChar (sep : Char) : List Char → List (List Char)
  | [] => [[]]
  | c :: rest =>
    if c = sep then [] :: splitOnChar sep rest
    else
      match splitOnChar sep rest with
      | [] => [[c]]
      | l :: ls => (c :: l) :: ls

/-- Python `article.split('\n')`. -/
def splitLines (s : List Char) : List (List Char) := splitOnChar '\n' s

/-- Python `'\n'.join(lines)`. -/
def joinLines : List (List Char) → List Char
  | [] => []
  | [l] => l
  | l :: ls => l ++ '\n' :: joinLines ls

/-- Helper for `wordsCount`: counts word starts; the flag records whether the
scan is currently inside a word. -/
def countWordsAux : List Char → Bool → Nat
  | [], _ => 0
  | c :: rest, inWord =>
    if pyIsSpace c then countWordsAux rest false
    else (if inWord then 0 else 1) + countWordsAux rest true

/-- Python `len(s.split())`: the number of maximal nonempty runs of
non-whitespace characters. -/
def wordsCount (s : List Char) : Nat := countWordsAux s false

/-- Worker for `replaceAll`: `skip` counts characters still to consume from
an occurrence already replaced. -/
def replaceAllAux (pat rep : List Char) : Nat → List Char → List Char
  | _, [] => []
  | k + 1, _ :: rest => replaceAllAux pat rep k rest
  | 0, c :: rest =>
    if !pat.isEmpty && pat.isPrefixOf (c :: rest) then
      rep ++ replaceAllAux pat rep (pat.length - 1) rest
    else c :: replaceAllAux pat rep 0 rest

/-- Python `s.replace(pat, rep)` for a nonempty literal `pat`: scan left to
right, replacing non-overlapping occurrences. -/
def replaceAll (pat rep : List Char) (s : List Char) : List Char :=
  replaceAllAux pat rep 0 s

/-! Source: `clean_article_for_display` (src/writer.py lines 712-739). -/

/-- Meta-commentary blocklist shared by `ensure_word_count`'s inline cleaning
(src/writer.py line 598). -/
def ensureMetaPhrases : List (List Char) :=
  ["word count:".toList, "total words:".toList, "[total word".toList,
   "additional words".toList, "---expanded".toList]

/-- Additional phrases only `clean_article_for_display` (and
`clean_article_for_export`) blocks, beyond `ensureMetaPhrases`
(src/writer.py lines 719-723). -/
def displayExtraPhrases : List (List Char) :=
  ["here\x27s an additional".toList, "to expand the article".toList,
   "words to expand".toList]

/-- Full display blocklist (src/writer.py lines 719-723). -/
def displayMetaPhrases : List (List Char) := ensureMetaPhrases ++ displayExtraPhrases

/-- Separator artifacts (src/writer.py line 728). -/
def separatorLines : List (List Char) :=
  ["---".toList, "___".toList, "---EXPANDED CONTENT---".toList]

/-- Test `any(x in line.lower() for x in displayMetaPhrases)`. -/
def isDisplayMeta (line : List Char) : Bool :=
  displayMetaPhrases.any (fun p => pyContains (pyLower line) p)

/-- Test `any(x in line.lower() for x in ensureMetaPhrases)`. -/
def isEnsureMeta (line : List Char) : Bool :=
  ensureMetaPhrases.any (fun p => pyContains (pyLower line) p)

/-- Test `line.strip() in ['---', '___', '---EXPANDED CONTENT---']`. -/
def isSeparator (line : List Char) : Bool :=
  separatorLines.contains (pyStrip line)

/-- Line loop of `clean_article_for_display` with its `skip_next` state:
meta lines are dropped and arm `skip`; separator lines are dropped leaving
`skip` as is; a blank line with `skip` armed is dropped and disarms it;
anything else is kept and disarms `skip` (src/writer.py lines 717-737). -/
def displayCleanLines (skip : Bool) : List (List Char) → List (List Char)
  | [] => []
  | line :: rest =>
    if isDisplayMeta line then displayCleanLines true rest
    else if isSeparator line then displayCleanLines skip rest
    else if skip && decide (pyStrip line = []) then displayCleanLines false rest
    else line :: displayCleanLines false rest

/-- Source `clean_article_for_display(article)` (src/writer.py lines 712-739):
split into lines, run the skip-state filter, rejoin and strip. -/
def clean_article_for_display (article : List Char) : List Char :=
  pyStrip (joinLines (displayCleanLines false (splitLines article)))

/-! Source: `ensure_word_count` (src/writer.py lines 590-709). -/

/-- Keep test of the inline cleaning at the top of `ensure_word_count`
(src/writer.py lines 596-602): drop meta lines and separator lines. -/
def ensureKeep (line : List Char) : Bool :=
  !isEnsureMeta line && !isSeparator line

/-- The cleaned article computed at src/writer.py lines 596-604. -/
def ensureClean (article : List Char) : List Char :=
  pyStrip (joinLines ((splitLines article).filter ensureKeep))

/-- Round-1 meta-text blocklist for expansion responses
(src/writer.py lines 646-651). -/
def round1Phrases : List (List Char) :=
  ["additional paragraph".toList, "additional content".toList,
   "here\x27s".toList, "here is".toList, "to expand".toList,
   "this adds".toList, "adding to".toList, "for the".toList,
   "section:".toList, "i\x27ll add".toList, "let me add".toList,
   "here are".toList, "to the section".toList, "building on".toList,
   "furthermore to".toList, "expanding on the".toList]

/-- Keep test for round-1 expansion lines (src/writer.py lines 643-656):
drop lines holding a blocked phrase, and short label-like lines whose
stripped form ends in a colon and is under 50 characters. -/
def round1Keep (line : List Char) : Bool :=
  !(round1Phrases.any (fun p => pyContains (pyLower line) p)) &&
  !(pyEndsWith (pyStrip line) [':'] && decide ((pyStrip line).length < 50))

/-- Cleaning of the round-1 expansion response
(src/writer.py lines 642-658). -/
def cleanRound1 (resp : List Char) : List Char :=
  pyStrip (joinLines ((splitLines resp).filter round1Keep))

/-- Round-2 blocklist (src/writer.py lines 687-690). -/
def round2Phrases : List (List Char) :=
  ["additional".toList, "here".toList, "paragraph".toList, "section".toList,
   "adding".toList, "to expand".toList, "furthermore to".toList,
   "building on".toList]

/-- Keep test for round-2 expansion lines (src/writer.py lines 685-691). -/
def round2Keep (line : List Char) : Bool :=
  !(round2Phrases.any (fun p => pyContains (pyLower line) p))

/-- Cleaning of the round-2 expansion response
(src/writer.py lines 684-693). -/
def cleanRound2 (resp : List Char) : List Char :=
  pyStrip (joinLines ((splitLines resp).filter round2Keep))

/-- Source `ensure_word_count(article, min_words, max_words, ...)`
(src/writer.py lines 590-709).  `o1` and `o2` are the two `call_claude`
expansion responses; `none` models the call returning Python `None`.
Control flow: empty articles are returned as is; the article is cleaned
and returned if already at or above `min_words`; otherwise round 1 appends
the cleaned response when it is truthy, returning the expanded article if
that meets the floor; otherwise round 2 appends its cleaned response and
the accumulated article is returned whether or not it meets the floor.
Whenever a response is `None` or empty the function falls through to the
final `return article`, which returns the cleaned article (the `article`
variable was reassigned at line 604).  `max_words` is never read by the
body. -/
def ensure_word_count (article : List Char) (min_words max_words : Nat)
    (o1 o2 : Option (List Char)) : List Char :=
  if article.isEmpty then article
  else
    let cleaned := ensureClean article
    if min_words ≤ wordsCount cleaned then cleaned
    else
      match o1 with
      | none => cleaned
      | some resp1 =>
        if resp1.isEmpty then cleaned
        else
          let expanded := cleaned ++ '\n' :: '\n' :: cleanRound1 resp1
          if min_words ≤ wordsCount expanded then expanded
          else
            match o2 with
            | none => cleaned
            | some resp2 =>
              if resp2.isEmpty then cleaned
              else expanded ++ '\n' :: '\n' :: cleanRound2 resp2

/-- Number of expansion generation calls `ensure_word_count` issues on the
same control flow: none when the article is empty or already meets the
floor; the round-1 call is always issued otherwise; the round-2 call is
issued only when round 1 returned usable content that still left the
article short (src/writer.py lines 637-681). -/
def ensureRounds (article : List Char) (min_words : Nat)
    (o1 : Option (List Char)) : Nat :=
  if article.isEmpty then 0
  else
    let cleaned := ensureClean article
    if min_words ≤ wordsCount cleaned then 0
    else
      match o1 with
      | none => 1
      | some resp1 =>
        if resp1.isEmpty then 1
        else
          let expanded := cleaned ++ '\n' :: '\n' :: cleanRound1 resp1
          if min_words ≤ wordsCount expanded then 1 else 2

/-! Source: `call_claude` (src/writer.py lines 419-444). -/

/-- Classification at src/writer.py line 432:
`"529" in error_message or "overloaded" in error_message.lower()`. -/
def isOverloadError (msg : List Char) : Bool :=
  pyContains msg "529".toList || pyContains (pyLower msg) "overloaded".toList

/-- Retry loop of `call_claude` (src/writer.py lines 421-444).  `oracle i`
is the outcome of the API call on attempt `i` (`Except.ok` a response text,
`Except.error` an error message).  Returns the result together with the
list of backoff sleeps performed, in order.  `fuel` counts the remaining
loop iterations, so `attempt + fuel = retry_count` throughout. -/
def callClaudeAux (oracle : Nat → Except (List Char) (List Char))
    (retry_count : Nat) : Nat → Nat → Option (List Char) × List Nat
  | _, 0 => (none, [])
  | attempt, fuel + 1 =>
    match oracle attempt with
    | .ok text => (some text, [])
    | .error msg =>
      if isOverloadError msg then
        if attempt < retry_count - 1 then
          let r := callClaudeAux oracle retry_count (attempt + 1) fuel
          (r.1, 2 ^ attempt * 5 :: r.2)
        else (none, [])
      else (none, [])

/-- Source `call_claude(prompt, max_tokens, retry_count)`: the loop
`for attempt in range(retry_count)` started at attempt 0 with
`retry_count` iterations. -/
def call_claude (oracle : Nat → Except (List Char) (List Char))
    (retry_count : Nat) : Option (List Char) × List Nat :=
  callClaudeAux oracle retry_count 0 retry_count

/-- The default of the `retry_count` parameter is 3 (src/writer.py line 419). -/
def call_claude_default (oracle : Nat → Except (List Char) (List Char)) :
    Option (List Char) × List Nat :=
  call_claude oracle 3

/-! Source: keyword merge in `generate_prompt` (src/writer.py lines 293-301). -/

/-- Keyword merge at the top of `generate_prompt`: when `custom` is truthy,
split it on commas, keep the stripped-nonempty parts lowercased, and append
each one not found in the (fixed, precomputed) lowercase image of the base
list.  Note the source computes `base_keywords_lower` once, before the
loop, and never refreshes it while appending. -/
def generate_prompt_keywords (base : List (List Char)) (custom : List Char) :
    List (List Char) :=
  if custom.isEmpty then base
  else
    let additional :=
      (((splitOnChar ',' custom).filter
        (fun kw => !(pyStrip kw).isEmpty)).map (fun kw => pyLower (pyStrip kw)))
    let baseLower := base.map pyLower
    additional.foldl
      (fun acc kw => if baseLower.contains kw then acc else acc ++ [kw]) base

/-- Contents of `client_cfg["keywords"]` after `generate_prompt` returns:
the source binds `base_keywords = client_cfg.get("keywords", [])`, which
aliases the profile's own list, and then appends to it in place, so after
the call the profile's keyword list is the merged list itself. -/
def generate_prompt_cfg_keywords_after (base : List (List Char))
    (custom : List Char) : List (List Char) :=
  generate_prompt_keywords base custom

/-! Source: `revise_article` and `process_revision_colors`
(src/writer.py lines 446-550). -/

/-- Truncation-detection phrases (src/writer.py lines 511-515). -/
def elisionPhrases : List (List Char) :=
  ["rest remains".toList, "continue with".toList, "remaining sections".toList,
   "rest of the article".toList, "continues unchanged".toList,
   "[remaining".toList, "would continue".toList]

/-- Test `any(phrase in revised_content.lower() for phrase in [...])`
(src/writer.py line 511). -/
def hasElision (t : List Char) : Bool :=
  elisionPhrases.any (fun p => pyContains (pyLower t) p)

/-- Source `process_revision_colors(content)` (src/writer.py lines 541-550):
replace the paired `[REVISED]` markers with the blue HTML span tags; empty
content passes through. -/
def process_revision_colors (content : List Char) : List Char :=
  if content.isEmpty then content
  else
    replaceAll "[/REVISED]".toList "</span>".toList
      (replaceAll "[REVISED]".toList
        "<span style=\"color: #0066CC;\">".toList content)

/-- Source `revise_article(original_article, revision_request, ...)`
(src/writer.py lines 447-539).  `r1` is the first `call_claude` response,
`r2` the corrective one; the cleaned article and its word count feed only
the prompt strings, which the oracle abstracts.  A falsy first response
returns `None`; a first response holding an elision phrase is replaced by
the corrective response (which may itself be `None`, propagated by
`process_revision_colors`); the chosen response is colour-processed and
returned without any further elision check. -/
def revise_article (original_article : List Char)
    (r1 r2 : Option (List Char)) : Option (List Char) :=
  match r1 with
  | none => none
  | some t1 =>
    if t1.isEmpty then none
    else
      match (if hasElision t1 then r2 else some t1) with
      | none => none
      | some t2 => some (process_revision_colors t2)

/-- Number of `call_claude` calls `revise_article` issues: always the first
one, plus the single corrective call when the first response is truthy and
holds an elision phrase (src/writer.py lines 507-533). -/
def reviseCalls (r1 : Option (List Char)) : Nat :=
  match r1 with
  | none => 1
  | some t1 => if t1.isEmpty then 1 else if hasElision t1 then 2 else 1

/-- The revision button handler (src/writer.py lines 1474-1480): the session
article is replaced only when `revise_article` returned a truthy value. -/
def applyRevision (st : List Char) (r : Option (List Char)) : List Char :=
  match r with
  | none => st
  | some t => if t.isEmpty then st else t

/-! Source: `save_to_history` (src/writer.py lines 135-152). -/

/-- A history entry: the payload stands for the `timestamp`/`title`/
`articles`/`keywords` fields, which `save_to_history` stores but never
inspects; `id` is the field set to `len(st.session_state.blog_history)`. -/
structure HistoryEntry (α : Type) where
  payload : α
  id : Nat
deriving DecidableEq, Repr

/-- Source `save_to_history(...)` (src/writer.py lines 135-152): build the
entry with `id` equal to the current length, insert at position 0, and
truncate to the first 10 entries when the length exceeds 10. -/
def save_to_history {α : Type} (payload : α) (history : List (HistoryEntry α)) :
    List (HistoryEntry α) :=
  let entry : HistoryEntry α := ⟨payload, history.length⟩
  let h := entry :: history
  if 10 < h.length then h.take 10 else h

/-- Sequential insertion of a list of payloads into an initially given
history, oldest first. -/
def insertAll {α : Type} (ps : List α) (h : List (HistoryEntry α)) :
    List (HistoryEntry α) :=
  ps.foldl (fun acc p => save_to_history p acc) h

/-! Theorems about `save_to_history`. -/

/-- Normal form of one insertion on a history respecting the cap: the new
entry, carrying the pre-insert length as its id, is put in front and at
most the first 9 old entries survive. -/
theorem save_to_history_eq_cons {α : Type} (p : α) (h : List (HistoryEntry α))
    (hh : h.length ≤ 10) :
    save_to_history p h = ⟨p, h.length⟩ :: h.take 9 := by
  unfold save_to_history
  by_cases hlen : h.length ≤ 9
  · have : ¬ 10 < (⟨p, h.length⟩ :: h).length := by
      simp only [List.length_cons]; omega
    simp only [this, if_false]
    rw [List.take_of_length_le hlen]
  · have h10 : h.length = 10 := by omega
    have : 10 < (⟨p, h.length⟩ :: h).length := by
      simp only [List.length_cons]; omega
    simp only [this, if_true]
    rw [List.take_succ_cons]

/-- Shape of the history after sequentially inserting `ps` into an empty
history: it keeps the `min ps.length 10` most recent payloads, most recent
first. -/
theorem insertAll_nil_spec {α : Type} (ps : List α) :
    (insertAll ps []).length = min ps.length 10 ∧
      (insertAll ps []).map HistoryEntry.payload = ps.reverse.take 10 := by
  induction ps using List.reverseRecOn with
  | nil => simp [insertAll]
  | append_singleton ps p ih =>
    have hstep : insertAll (ps ++ [p]) [] = save_to_history p (insertAll ps []) := by
      unfold insertAll
      rw [List.foldl_append]
      rfl
    have hl := ih.1
    have hlen : (insertAll ps []).length ≤ 10 := by omega
    have hcons := save_to_history_eq_cons p (insertAll ps []) hlen
    constructor
    · rw [hstep, hcons]
      simp only [List.length_cons, List.length_take, List.length_append,
        List.length_singleton, List.length_nil]
      omega
    · rw [hstep, hcons]
      simp only [List.map_cons, List.map_take, ih.2, List.take_take]
      have : ((ps ++ [p]).reverse.take 10) = p :: ps.reverse.take 9 := by
        simp [List.reverse_append, List.take_succ_cons]
      rw [this]
      simp

/-- C9: every insertion into a history within the 10-entry cap keeps the
length at most 10 and puts the new entry first while preserving the order
of the survivors (most-recent-first is an invariant); and after 15
sequential insertions into an empty history the history holds exactly the
10 most recently inserted payloads in reverse insertion order. -/
theorem history_cap_invariant {α : Type} (p : α) (h : List (HistoryEntry α))
    (ps : List α) (hh : h.length ≤ 10) (hps : ps.length = 15) :
    ((save_to_history p h).length ≤ 10 ∧
      save_to_history p h = ⟨p, h.length⟩ :: h.take 9) ∧
    (insertAll ps []).length = 10 ∧
    (insertAll ps []).map HistoryEntry.payload = ps.reverse.take 10 := by
  refine ⟨⟨?_, save_to_history_eq_cons p h hh⟩, ?_, (insertAll_nil_spec ps).2⟩
  · rw [save_to_history_eq_cons p h hh]
    simp only [List.length_cons, List.length_take]
    omega
  · have := (insertAll_nil_spec ps).1
    rw [hps] at this
    omega

theorem history_cap_invariant_witness :
    (((List.range 10).map (fun i => (⟨i, i⟩ : HistoryEntry Nat))).length ≤ 10 ∧
      (List.range 15).length = 15) ∧
    ((save_to_history 99 ((List.range 10).map (fun i => (⟨i, i⟩ : HistoryEntry Nat)))).length ≤ 10 ∧
      save_to_history 99 ((List.range 10).map (fun i => (⟨i, i⟩ : HistoryEntry Nat))) =
        ⟨99, ((List.range 10).map (fun i => (⟨i, i⟩ : HistoryEntry Nat))).length⟩ ::
          ((List.range 10).map (fun i => (⟨i, i⟩ : HistoryEntry Nat))).take 9) ∧
    (insertAll (List.range 15) []).length = 10 ∧
    (insertAll (List.range 15) []).map HistoryEntry.payload = (List.range 15).reverse.take 10 :=
  ⟨⟨by decide, by decide⟩,
    history_cap_invariant 99 ((List.range 10).map (fun i => (⟨i, i⟩ : HistoryEntry Nat)))
      (List.range 15) (by decide) (by decide)⟩

/-- C10: the entry built by `save_to_history` carries an id equal to the
history length before the insert and is placed at the head; once the
history is at its cap of 10, two further insertions both receive id 10, so
ids stop being unique. -/
theorem history_id_not_unique {α : Type} (p q : α) (h : List (HistoryEntry α))
    (hlen : h.length = 10) :
    (save_to_history p h).head? = some ⟨p, h.length⟩ ∧
    ((save_to_history q (save_to_history p h)).map HistoryEntry.id).take 2 = [10, 10] ∧
    (save_to_history q (save_to_history p h)).length = 10 := by
  have h1 : save_to_history p h = ⟨p, h.length⟩ :: h.take 9 :=
    save_to_history_eq_cons p h (le_of_eq hlen)
  have hlen1 : (save_to_history p h).length = 10 := by
    rw [h1]; simp only [List.length_cons, List.length_take]; omega
  have h2 : save_to_history q (save_to_history p h) =
      ⟨q, (save_to_history p h).length⟩ :: (save_to_history p h).take 9 :=
    save_to_history_eq_cons q (save_to_history p h) (le_of_eq hlen1)
  refine ⟨by rw [h1]; rfl, ?_, ?_⟩
  · rw [h2, hlen1, h1, hlen]
    simp [List.take_succ_cons]
  · rw [h2]
    simp only [List.length_cons, List.length_take, hlen1]
    omega

theorem history_id_not_unique_witness :
    (((List.range 10).map (fun i => (⟨i, i⟩ : HistoryEntry Nat))).length = 10) ∧
    ((save_to_history 77 ((List.range 10).map (fun i => (⟨i, i⟩ : HistoryEntry Nat)))).head? =
      some ⟨77, ((List.range 10).map (fun i => (⟨i, i⟩ : HistoryEntry Nat))).length⟩ ∧
    ((save_to_history 88 (save_to_history 77
        ((List.range 10).map (fun i => (⟨i, i⟩ : HistoryEntry Nat))))).map HistoryEntry.id).take 2 =
      [10, 10] ∧
    (save_to_history 88 (save_to_history 77
        ((List.range 10).map (fun i => (⟨i, i⟩ : HistoryEntry Nat))))).length = 10) :=
  ⟨by decide,
    history_id_not_unique 77 88 ((List.range 10).map (fun i => (⟨i, i⟩ : HistoryEntry Nat)))
      (by decide)⟩

/-! Theorems about the keyword merge in `generate_prompt`. -/

/-- C7: evaluating the keyword merge at the spec's scenario input.  Because
`base_keywords_lower` is computed once before the loop and never refreshed,
the repeated extra keyword "remote work" is appended twice; the merged list
is not the deduplicated list the spec's scenario states. -/
theorem generate_prompt_keywords_scenario :
    generate_prompt_keywords ["hiring".toList, "talent".toList]
        "Remote Work, remote work, Hiring".toList =
      ["hiring".toList, "talent".toList, "remote work".toList, "remote work".toList] ∧
    generate_prompt_keywords ["hiring".toList, "talent".toList]
        "Remote Work, remote work, Hiring".toList ≠
      ["hiring".toList, "talent".toList, "remote work".toList] := by
  constructor
  · decide
  · decide

/-- C8: at the same scenario input, the list stored in the client profile
after `generate_prompt` returns differs from the base keyword list it held
before the call: the merge appends to the very list object obtained from
`client_cfg.get("keywords", [])`, mutating the profile. -/
theorem generate_prompt_profile_mutated :
    generate_prompt_cfg_keywords_after ["hiring".toList, "talent".toList]
        "Remote Work, remote work, Hiring".toList ≠
      ["hiring".toList, "talent".toList] := by
  decide

/-! Theorems about `revise_article`. -/

/-- C4: when the Generation Gateway call behind a revision terminally fails
(`call_claude` returns `None`, modelled by a `none` oracle response),
`revise_article` returns `None`, and the revision button handler leaves the
session article exactly as it was — whether the failing call is the first
one or the corrective one issued after an elision phrase was detected. -/
theorem revise_article_nondestructive (a st t1 : List Char)
    (r2 : Option (List Char)) :
    (revise_article a none r2 = none ∧
      applyRevision st (revise_article a none r2) = st) ∧
    (t1 ≠ [] → hasElision t1 = true →
      revise_article a (some t1) none = none ∧
        applyRevision st (revise_article a (some t1) none) = st) := by
  refine ⟨⟨rfl, rfl⟩, ?_⟩
  intro h1 h2
  have he : t1.isEmpty = false := by
    cases t1 with
    | nil => exact absurd rfl h1
    | cons c cs => rfl
  constructor
  · simp [revise_article, he, h2]
  · simp [revise_article, applyRevision, he, h2]

theorem revise_article_nondestructive_witness :
    ("x the rest remains unchanged".toList ≠ ([] : List Char)) ∧
    hasElision "x the rest remains unchanged".toList = true ∧
    ((revise_article "art".toList none (some "y".toList) = none ∧
      applyRevision "art".toList (revise_article "art".toList none (some "y".toList)) =
        "art".toList) ∧
    (revise_article "art".toList (some "x the rest remains unchanged".toList) none = none ∧
      applyRevision "art".toList
          (revise_article "art".toList (some "x the rest remains unchanged".toList) none) =
        "art".toList)) :=
  ⟨by decide, by decide,
    (revise_article_nondestructive "art".toList "art".toList
        "x the rest remains unchanged".toList (some "y".toList)).1,
    (revise_article_nondestructive "art".toList "art".toList
        "x the rest remains unchanged".toList (some "y".toList)).2 (by decide) (by decide)⟩

/-- C3 counterexample: a revision whose first response holds the elision
phrase "the rest remains unchanged" and whose corrective response still
holds it; the revision engine stores the corrective response unchecked, so
the final stored article still contains an elision phrase, contradicting
the claim as stated. -/
theorem revise_article_elision_counterexample :
    hasElision "Better intro. The rest remains unchanged.".toList = true ∧
    hasElision (applyRevision "old article".toList
        (revise_article "old article".toList
          (some "Better intro. The rest remains unchanged.".toList)
          (some "Improved intro. The rest remains unchanged.".toList))) = true := by
  constructor
  · decide
  · decide

/-- C3 (amended): when the first response is truthy and holds an elision
phrase, `revise_article` issues exactly one corrective follow-up call
(two generation calls in total) and returns the colour-processed corrective
response in place of the first — without re-checking it for elision
phrases. -/
theorem revise_article_corrective (a t1 : List Char) (r2 : Option (List Char))
    (h1 : t1 ≠ []) (h2 : hasElision t1 = true) :
    reviseCalls (some t1) = 2 ∧
    revise_article a (some t1) r2 = r2.map process_revision_colors := by
  have he : t1.isEmpty = false := by
    cases t1 with
    | nil => exact absurd rfl h1
    | cons c cs => rfl
  constructor
  · simp [reviseCalls, he, h2]
  · cases r2 with
    | none => simp [revise_article, he, h2]
    | some t2 => simp [revise_article, he, h2]

theorem revise_article_corrective_witness :
    ("a rest remains b".toList ≠ ([] : List Char)) ∧
    hasElision "a rest remains b".toList = true ∧
    reviseCalls (some "a rest remains b".toList) = 2 ∧
    revise_article "art".toList (some "a rest remains b".toList)
        (some "[REVISED]done[/REVISED]".toList) =
      (some "[REVISED]done[/REVISED]".toList).map process_revision_colors :=
  ⟨by decide, by decide,
    (revise_article_corrective "art".toList "a rest remains b".toList
        (some "[REVISED]done[/REVISED]".toList) (by decide) (by decide)).1,
    (revise_article_corrective "art".toList "a rest remains b".toList
        (some "[REVISED]done[/REVISED]".toList) (by decide) (by decide)).2⟩

/-! Theorems about `call_claude`. -/

/-- Invariant of the retry loop, proved by induction on the remaining fuel:
the backoff sleeps number fewer than the remaining iterations, the sleep
after attempt `attempt + i` lasts `2 ^ (attempt + i) * 5` seconds, each
sleep was preceded by an overload-classified failure, and a non-overload
failure on the attempt following the last sleep yields `none`. -/
theorem callClaudeAux_spec (oracle : Nat → Except (List Char) (List Char))
    (total : Nat) :
    ∀ fuel attempt, attempt + fuel = total →
      (callClaudeAux oracle total attempt fuel).2.length ≤ fuel - 1 ∧
      (∀ i, i < (callClaudeAux oracle total attempt fuel).2.length →
        (callClaudeAux oracle total attempt fuel).2.get? i =
          some (2 ^ (attempt + i) * 5)) ∧
      (∀ i, i < (callClaudeAux oracle total attempt fuel).2.length →
        ∃ msg, oracle (attempt + i) = .error msg ∧ isOverloadError msg = true) ∧
      (∀ msg,
        oracle (attempt + (callClaudeAux oracle total attempt fuel).2.length) =
          .error msg →
        isOverloadError msg = false →
        (callClaudeAux oracle total attempt fuel).1 = none) := by
  intro fuel
  induction fuel with
  | zero =>
    intro attempt hat
    refine ⟨by simp [callClaudeAux], ?_, ?_, ?_⟩
    · intro i hi
      simp [callClaudeAux] at hi
    · intro i hi
      simp [callClaudeAux] at hi
    · intro msg _ _
      simp [callClaudeAux]
  | succ fuel ih =>
    intro attempt hat
    cases horacle : oracle attempt with
    | ok text =>
      have hred : callClaudeAux oracle total attempt (fuel + 1) = (some text, []) := by
        simp [callClaudeAux, horacle]
      refine ⟨by simp [hred], ?_, ?_, ?_⟩
      · intro i hi
        simp [hred] at hi
      · intro i hi
        simp [hred] at hi
      · intro msg hmsg _
        rw [hred] at hmsg
        simp only [List.length_nil, Nat.add_zero] at hmsg
        rw [horacle] at hmsg
        exact absurd hmsg (by simp)
    | error msg =>
      by_cases hov : isOverloadError msg = true
      · by_cases hlt : attempt < total - 1
        · have hred : callClaudeAux oracle total attempt (fuel + 1) =
              ((callClaudeAux oracle total (attempt + 1) fuel).1,
                2 ^ attempt * 5 ::
                  (callClaudeAux oracle total (attempt + 1) fuel).2) := by
            simp [callClaudeAux, horacle, hov, hlt]
          have hrec := ih (attempt + 1) (by omega)
          refine ⟨?_, ?_, ?_, ?_⟩
          · rw [hred]
            simp only [List.length_cons]
            have hfuel : 1 ≤ fuel := by omega
            have := hrec.1
            omega
          · intro i hi
            rw [hred] at hi ⊢
            cases i with
            | zero => simp
            | succ j =>
              simp only [List.length_cons] at hi
              have hj : j < (callClaudeAux oracle total (attempt + 1) fuel).2.length := by
                omega
              have hget := hrec.2.1 j hj
              simp only [List.get?_cons_succ]
              rw [show attempt + (j + 1) = attempt + 1 + j by omega]
              exact hget
          · intro i hi
            rw [hred] at hi
            simp only [List.length_cons] at hi
            cases i with
            | zero => exact ⟨msg, by simpa using horacle, hov⟩
            | succ j =>
              have hj : j < (callClaudeAux oracle total (attempt + 1) fuel).2.length := by
                omega
              obtain ⟨m, hm1, hm2⟩ := hrec.2.2.1 j hj
              refine ⟨m, ?_, hm2⟩
              rw [show attempt + (j + 1) = attempt + 1 + j by omega]
              exact hm1
          · intro m hm1 hm2
            rw [hred] at hm1 ⊢
            simp only [List.length_cons] at hm1
            have : attempt + ((callClaudeAux oracle total (attempt + 1) fuel).2.length + 1) =
                attempt + 1 + (callClaudeAux oracle total (attempt + 1) fuel).2.length := by
              omega
            rw [this] at hm1
            exact hrec.2.2.2 m hm1 hm2
        · have hred : callClaudeAux oracle total attempt (fuel + 1) = (none, []) := by
            simp [callClaudeAux, horacle, hov, hlt]
          refine ⟨by simp [hred], ?_, ?_, ?_⟩
          · intro i hi
            simp [hred] at hi
          · intro i hi
            simp [hred] at hi
          · intro m _ _
            simp [hred]
      · have hred : callClaudeAux oracle total attempt (fuel + 1) = (none, []) := by
          simp [callClaudeAux, horacle, hov]
        refine ⟨by simp [hred], ?_, ?_, ?_⟩
        · intro i hi
          simp [hred] at hi
        · intro i hi
          simp [hred] at hi
        · intro m _ _
          simp [hred]

/-- C5: the Generation Gateway retries only failures classified as
transient overload, sleeping `5 * 2 ^ attempt` seconds before each retry
(5s, then 10s, ...), makes at most `retry_count` attempts in total
(`call_claude`'s `retry_count` parameter defaults to 3), and surfaces any
non-overload failure immediately as a terminal `None` with no retry. -/
theorem call_claude_retry_policy (oracle : Nat → Except (List Char) (List Char))
    (retry_count : Nat) (hrc : 1 ≤ retry_count) :
    (call_claude oracle retry_count).2.length + 1 ≤ retry_count ∧
    (call_claude oracle retry_count).2 =
      (List.range (call_claude oracle retry_count).2.length).map
        (fun i => 5 * 2 ^ i) ∧
    (∀ i, i < (call_claude oracle retry_count).2.length →
      ∃ msg, oracle i = .error msg ∧ isOverloadError msg = true) ∧
    (∀ msg, oracle (call_claude oracle retry_count).2.length = .error msg →
      isOverloadError msg = false → (call_claude oracle retry_count).1 = none) ∧
    call_claude_default oracle = call_claude oracle 3 := by
  unfold call_claude
  have hspec := callClaudeAux_spec oracle retry_count retry_count 0 (by omega)
  refine ⟨?_, ?_, ?_, ?_, rfl⟩
  · have := hspec.1
    omega
  · apply List.ext
    intro n
    by_cases hn : n < (callClaudeAux oracle retry_count 0 retry_count).2.length
    · have hget := hspec.2.1 n hn
      simp only [Nat.zero_add] at hget
      rw [hget, List.get?_map, List.get?_range hn]
      simp [Nat.mul_comm]
    · have h1 : (callClaudeAux oracle retry_count 0 retry_count).2.get? n = none := by
        exact List.get?_eq_none.mpr (by omega)
      have h2 : ((List.range
            (callClaudeAux oracle retry_count 0 retry_count).2.length).map
            (fun i => 5 * 2 ^ i)).get? n = none := by
        exact List.get?_eq_none.mpr (by simp; omega)
      rw [h1, h2]
  · intro i hi
    have := hspec.2.2.1 i hi
    simpa using this
  · intro msg hmsg hov
    have := hspec.2.2.2 msg (by simpa using hmsg) hov
    exact this

/-- Concrete oracle used by the retry-policy witness: the first attempt
fails with an overload status, the second succeeds. -/
def oracleC5 : Nat → Except (List Char) (List Char) :=
  fun i => if i = 0 then .error "Error code: 529".toList else .ok "done".toList

theorem call_claude_retry_policy_witness :
    1 ≤ 3 ∧
    (call_claude oracleC5 3).2.length + 1 ≤ 3 ∧
    (call_claude oracleC5 3).2 =
      (List.range (call_claude oracleC5 3).2.length).map (fun i => 5 * 2 ^ i) :=
  ⟨by decide, (call_claude_retry_policy oracleC5 3 (by decide)).1,
    (call_claude_retry_policy oracleC5 3 (by decide)).2.1⟩

/-! Word-count lemmas. -/

/-- Splitting at an explicit whitespace character splits the word count. -/
theorem countWordsAux_append_ws (c : Char) (hc : pyIsSpace c = true) :
    ∀ (a b : List Char) (iw : Bool),
      countWordsAux (a ++ c :: b) iw = countWordsAux a iw + countWordsAux b false := by
  intro a
  induction a with
  | nil =>
    intro b iw
    simp [countWordsAux, hc]
  | cons d a ih =>
    intro b iw
    by_cases hd : pyIsSpace d = true
    · simp [countWordsAux, hd, ih]
    · simp only [Bool.not_eq_true] at hd
      simp [countWordsAux, hd, ih, Nat.add_assoc]

/-- All-whitespace text holds no words. -/
theorem countWordsAux_ws_eq_zero :
    ∀ (w : List Char), (∀ c ∈ w, pyIsSpace c = true) →
      ∀ iw, countWordsAux w iw = 0 := by
  intro w
  induction w with
  | nil => intro _ iw; simp [countWordsAux]
  | cons c w ih =>
    intro hw iw
    have hc : pyIsSpace c = true := hw c (by simp)
    simp [countWordsAux, hc, ih (fun d hd => hw d (by simp [hd]))]

/-- An all-whitespace suffix does not change the word count. -/
theorem countWordsAux_append_ws_right :
    ∀ (a w : List Char), (∀ c ∈ w, pyIsSpace c = true) →
      ∀ iw, countWordsAux (a ++ w) iw = countWordsAux a iw := by
  intro a
  induction a with
  | nil =>
    intro w hw iw
    simp [countWordsAux, countWordsAux_ws_eq_zero w hw iw]
  | cons d a ih =>
    intro w hw iw
    by_cases hd : pyIsSpace d = true
    · simp [countWordsAux, hd, ih w hw]
    · simp only [Bool.not_eq_true] at hd
      simp [countWordsAux, hd, ih w hw]

/-- Dropping leading whitespace does not change the word count. -/
theorem countWordsAux_dropWhile :
    ∀ (s : List Char), countWordsAux (s.dropWhile pyIsSpace) false =
      countWordsAux s false := by
  intro s
  induction s with
  | nil => rfl
  | cons c s ih =>
    by_cases hc : pyIsSpace c = true
    · simp [List.dropWhile, hc, ih, countWordsAux]
    · simp only [Bool.not_eq_true] at hc
      simp [List.dropWhile, hc]

/-- Python `strip` does not change `len(s.split())`. -/
theorem wordsCount_pyStrip (s : List Char) :
    wordsCount (pyStrip s) = wordsCount s := by
  unfold pyStrip wordsCount
  set u := s.dropWhile pyIsSpace with hu
  have hdecomp : u = (u.reverse.dropWhile pyIsSpace).reverse ++
      (u.reverse.takeWhile pyIsSpace).reverse := by
    have h1 : u.reverse.takeWhile pyIsSpace ++ u.reverse.dropWhile pyIsSpace =
        u.reverse := List.takeWhile_append_dropWhile pyIsSpace u.reverse
    calc u = u.reverse.reverse := by rw [List.reverse_reverse]
    _ = (u.reverse.takeWhile pyIsSpace ++ u.reverse.dropWhile pyIsSpace).reverse := by
        rw [h1]
    _ = (u.reverse.dropWhile pyIsSpace).reverse ++
          (u.reverse.takeWhile pyIsSpace).reverse := by
        rw [List.reverse_append]
  have hws : ∀ c ∈ (u.reverse.takeWhile pyIsSpace).reverse, pyIsSpace c = true := by
    intro c hc
    exact List.mem_takeWhile_imp (List.mem_reverse.mp hc)
  calc countWordsAux ((u.reverse.dropWhile pyIsSpace).reverse) false
      = countWordsAux ((u.reverse.dropWhile pyIsSpace).reverse ++
          (u.reverse.takeWhile pyIsSpace).reverse) false := by
        rw [countWordsAux_append_ws_right _ _ hws]
    _ = countWordsAux u false := by rw [← hdecomp]
    _ = countWordsAux s false := countWordsAux_dropWhile s

/-- The word count of joined lines is the sum of the line word counts. -/
theorem wordsCount_joinLines :
    ∀ (ls : List (List Char)),
      wordsCount (joinLines ls) = (ls.map wordsCount).sum := by
  intro ls
  induction ls with
  | nil => rfl
  | cons l ls ih =>
    cases ls with
    | nil => simp [joinLines, wordsCount]
    | cons l2 ls2 =>
      show wordsCount (l ++ '\n' :: joinLines (l2 :: ls2)) = _
      have key : wordsCount (l ++ '\n' :: joinLines (l2 :: ls2)) =
          wordsCount l + wordsCount (joinLines (l2 :: ls2)) :=
        countWordsAux_append_ws '\n' (by decide) l (joinLines (l2 :: ls2)) false
      rw [key, List.map_cons, List.sum_cons, ih]

/-- Appending a double line break and extra text never lowers the word
count, and raises it by exactly the extra text's word count. -/
theorem wordsCount_append_break (a b : List Char) :
    wordsCount (a ++ '\n' :: '\n' :: b) = wordsCount a + wordsCount b := by
  unfold wordsCount
  rw [countWordsAux_append_ws '\n' (by decide) a ('\n' :: b) false]
  simp [countWordsAux, pyIsSpace]

/-- The display blocklist extends the blocklist used inside
`ensure_word_count`, so a line passing the display meta test passes the
enforcer's meta test. -/
theorem isDisplayMeta_of_isEnsureMeta (line : List Char)
    (h : isEnsureMeta line = true) : isDisplayMeta line = true := by
  unfold isDisplayMeta displayMetaPhrases
  rw [List.any_append]
  unfold isEnsureMeta at h
  rw [h]
  rfl

/-- The display-time filter removes every line the enforcer's inline
cleaning removes (and possibly more), so its surviving word mass is no
larger. -/
theorem displayCleanLines_sum_le :
    ∀ (ls : List (List Char)) (skip : Bool),
      ((displayCleanLines skip ls).map wordsCount).sum ≤
        ((ls.filter ensureKeep).map wordsCount).sum := by
  intro ls
  induction ls with
  | nil => intro skip; simp [displayCleanLines]
  | cons line rest ih =>
    intro skip
    have hfilter_le : ((rest.filter ensureKeep).map wordsCount).sum ≤
        (((line :: rest).filter ensureKeep).map wordsCount).sum := by
      by_cases hk : ensureKeep line = true
      · simp [List.filter_cons, hk]
      · simp only [Bool.not_eq_true] at hk
        simp [List.filter_cons, hk]
    by_cases hm : isDisplayMeta line = true
    · calc ((displayCleanLines skip (line :: rest)).map wordsCount).sum
          = ((displayCleanLines true rest).map wordsCount).sum := by
            simp [displayCleanLines, hm]
      _ ≤ ((rest.filter ensureKeep).map wordsCount).sum := ih true
      _ ≤ _ := hfilter_le
    · simp only [Bool.not_eq_true] at hm
      by_cases hs : isSeparator line = true
      · have hk : ensureKeep line = false := by
          unfold ensureKeep
          rw [hs]
          simp
        calc ((displayCleanLines skip (line :: rest)).map wordsCount).sum
            = ((displayCleanLines skip rest).map wordsCount).sum := by
              simp [displayCleanLines, hm, hs]
        _ ≤ ((rest.filter ensureKeep).map wordsCount).sum := ih skip
        _ = _ := by simp [List.filter_cons, hk]
      · simp only [Bool.not_eq_true] at hs
        have hem : isEnsureMeta line = false := by
          by_contra hcon
          simp only [Bool.not_eq_false] at hcon
          rw [isDisplayMeta_of_isEnsureMeta line hcon] at hm
          exact Bool.true_eq_false.mp hm
        have hk : ensureKeep line = true := by
          unfold ensureKeep
          rw [hem, hs]
          rfl
        have hrhs : (((line :: rest).filter ensureKeep).map wordsCount).sum =
            wordsCount line + ((rest.filter ensureKeep).map wordsCount).sum := by
          simp [List.filter_cons, hk]
        by_cases hb : (skip && decide (pyStrip line = [])) = true
        · calc ((displayCleanLines skip (line :: rest)).map wordsCount).sum
              = ((displayCleanLines false rest).map wordsCount).sum := by
                simp [displayCleanLines, hm, hs, hb]
          _ ≤ ((rest.filter ensureKeep).map wordsCount).sum := ih false
          _ ≤ wordsCount line + ((rest.filter ensureKeep).map wordsCount).sum := by
              omega
          _ = _ := hrhs.symm
        · simp only [Bool.not_eq_true] at hb
          calc ((displayCleanLines skip (line :: rest)).map wordsCount).sum
              = wordsCount line + ((displayCleanLines false rest).map wordsCount).sum := by
                simp [displayCleanLines, hm, hs, hb]
          _ ≤ wordsCount line + ((rest.filter ensureKeep).map wordsCount).sum := by
              have := ih false
              omega
          _ = _ := hrhs.symm

/-- The displayed (sanitized) article never has more words than the article
`ensure_word_count` starts from after its own inline cleaning. -/
theorem wordsCount_display_le_ensureClean (x : List Char) :
    wordsCount (clean_article_for_display x) ≤ wordsCount (ensureClean x) := by
  unfold clean_article_for_display ensureClean
  rw [wordsCount_pyStrip, wordsCount_pyStrip, wordsCount_joinLines,
    wordsCount_joinLines]
  exact displayCleanLines_sum_le (splitLines x) false

/-- Case analysis on the value `ensure_word_count` returns: the sanitized
input, the sanitized input with one block of appended text, or with two. -/
theorem ensure_word_count_cases (article : List Char) (mn mx : Nat)
    (o1 o2 : Option (List Char)) :
    (ensure_word_count article mn mx o1 o2 = article ∧ article = []) ∨
    ensure_word_count article mn mx o1 o2 = ensureClean article ∨
    (∃ t, ensure_word_count article mn mx o1 o2 =
      ensureClean article ++ '\n' :: '\n' :: t) ∨
    (∃ t u, ensure_word_count article mn mx o1 o2 =
      (ensureClean article ++ '\n' :: '\n' :: t) ++ '\n' :: '\n' :: u) := by
  unfold ensure_word_count
  by_cases hempty : article.isEmpty = true
  · left
    exact ⟨by simp [hempty], List.isEmpty_iff.mp hempty⟩
  · simp only [Bool.not_eq_true] at hempty
    right
    simp only [hempty, Bool.false_eq_true, if_false]
    by_cases h1 : mn ≤ wordsCount (ensureClean article)
    · left; simp [h1]
    · simp only [if_neg h1]
      cases o1 with
      | none => left; rfl
      | some resp1 =>
        by_cases hr1 : resp1.isEmpty = true
        · left; simp [hr1]
        · simp only [Bool.not_eq_true] at hr1
          simp only [hr1, Bool.false_eq_true, if_false]
          by_cases h2 : mn ≤ wordsCount (ensureClean article ++ '\n' :: '\n' ::
              cleanRound1 resp1)
          · right; left
            exact ⟨cleanRound1 resp1, by simp [h2]⟩
          · simp only [if_neg h2]
            cases o2 with
            | none => left; rfl
            | some resp2 =>
              by_cases hr2 : resp2.isEmpty = true
              · left; simp [hr2]
              · simp only [Bool.not_eq_true] at hr2
                simp only [hr2, Bool.false_eq_true, if_false]
                right; right
                exact ⟨cleanRound1 resp1, cleanRound2 resp2, rfl⟩

/-- C2: the article returned by `ensure_word_count` never has fewer words
than the sanitized (`clean_article_for_display`) input article — the
enforcer only ever appends content and never trims an overshoot above the
band maximum. -/
theorem ensure_word_count_never_shrink (article : List Char) (mn mx : Nat)
    (o1 o2 : Option (List Char)) :
    wordsCount (clean_article_for_display article) ≤
      wordsCount (ensure_word_count article mn mx o1 o2) := by
  have hbase := wordsCount_display_le_ensureClean article
  rcases ensure_word_count_cases article mn mx o1 o2 with
    ⟨heq, hnil⟩ | heq | ⟨t, heq⟩ | ⟨t, u, heq⟩
  · rw [heq, hnil]
    subst hnil
    decide
  · rw [heq]
    exact hbase
  · rw [heq, wordsCount_append_break]
    omega
  · rw [heq, wordsCount_append_break, wordsCount_append_break]
    omega

/-- C1 counterexample: a three-word article with band (5, 5) whose single
round-1 expansion call fails (`call_claude` returns `None`): the enforcer
returns the sanitized input (3 words, under the floor) after only one
expansion round, so the claim's disjunction fails as stated. -/
theorem ensure_word_count_floor_counterexample :
    ¬ (5 ≤ wordsCount (ensure_word_count "one two three".toList 5 5 none none) ∨
      ensureRounds "one two three".toList 5 none = 2) := by
  decide

/-- C1 (amended): for every band with `min ≤ max`, `ensure_word_count`
either returns an article meeting the floor, or has issued exactly its two
expansion rounds, or an expansion call returned no usable content (or the
input was empty), in which case it returns the sanitized input article
with every appended expansion discarded. -/
theorem ensure_word_count_floor (article : List Char) (mn mx : Nat)
    (o1 o2 : Option (List Char)) (hband : mn ≤ mx) :
    mn ≤ wordsCount (ensure_word_count article mn mx o1 o2) ∨
    ensureRounds article mn o1 = 2 ∨
    ensure_word_count article mn mx o1 o2 = ensureClean article := by
  unfold ensure_word_count ensureRounds
  by_cases hempty : article.isEmpty = true
  · right; right
    have : article = [] := List.isEmpty_iff.mp hempty
    subst this
    simp only [List.isEmpty_nil, if_true]
    decide
  · simp only [Bool.not_eq_true] at hempty
    simp only [hempty, Bool.false_eq_true, if_false]
    by_cases h1 : mn ≤ wordsCount (ensureClean article)
    · left; simp [h1]
    · simp only [if_neg h1]
      cases o1 with
      | none => right; right; rfl
      | some resp1 =>
        by_cases hr1 : resp1.isEmpty = true
        · right; right; simp [hr1]
        · simp only [Bool.not_eq_true] at hr1
          simp only [hr1, Bool.false_eq_true, if_false]
          by_cases h2 : mn ≤ wordsCount (ensureClean article ++ '\n' :: '\n' ::
              cleanRound1 resp1)
          · left; simp [h2]
          · simp only [if_neg h2]
            cases o2 with
            | none => right; right; rfl
            | some resp2 =>
              by_cases hr2 : resp2.isEmpty = true
              · right; right; simp [hr2]
              · right; left
                trivial

theorem ensure_word_count_floor_witness :
    1 ≤ 2 ∧
    (1 ≤ wordsCount (ensure_word_count "one two".toList 1 2 none none) ∨
      ensureRounds "one two".toList 1 none = 2 ∨
      ensure_word_count "one two".toList 1 2 none none = ensureClean "one two".toList) :=
  ⟨by decide, ensure_word_count_floor "one two".toList 1 2 none none (by decide)⟩

/-! Splitting and joining lines: basic algebra. -/

theorem splitOnChar_cons (sep c : Char) (rest : List Char) :
    splitOnChar sep (c :: rest) =
      if c = sep then [] :: splitOnChar sep rest
      else
        match splitOnChar sep rest with
        | [] => [[c]]
        | l :: ls => (c :: l) :: ls := by
  rw [splitOnChar]

theorem splitOnChar_ne_nil (sep : Char) :
    ∀ (s : List Char), splitOnChar sep s ≠ [] := by
  intro s
  cases s with
  | nil => simp [splitOnChar]
  | cons c rest =>
    rw [splitOnChar_cons]
    by_cases hc : c = sep
    · simp [hc]
    · simp only [hc, if_false]
      cases h : splitOnChar sep rest with
      | nil => simp
      | cons l ls => simp

theorem splitOnChar_cons_of_ne (sep c : Char) (rest l : List Char)
    (ls : List (List Char)) (hc : ¬ c = sep)
    (hr : splitOnChar sep rest = l :: ls) :
    splitOnChar sep (c :: rest) = (c :: l) :: ls := by
  rw [splitOnChar_cons, if_neg hc, hr]

/-- No line produced by `splitOnChar` holds the separator. -/
theorem not_mem_of_mem_splitOnChar (sep : Char) :
    ∀ (s : List Char) (L : List Char), L ∈ splitOnChar sep s → sep ∉ L := by
  intro s
  induction s with
  | nil =>
    intro L hL
    simp [splitOnChar] at hL
    simp [hL]
  | cons c rest ih =>
    intro L hL
    by_cases hc : c = sep
    · rw [splitOnChar_cons, if_pos hc] at hL
      rcases List.mem_cons.mp hL with h | h
      · simp [h]
      · exact ih L h
    · obtain ⟨l, ls, hr⟩ : ∃ l ls, splitOnChar sep rest = l :: ls := by
        cases h : splitOnChar sep rest with
        | nil => exact absurd h (splitOnChar_ne_nil sep rest)
        | cons l ls => exact ⟨l, ls, rfl⟩
      rw [splitOnChar_cons_of_ne sep c rest l ls hc hr] at hL
      rcases List.mem_cons.mp hL with h | h
      · subst h
        intro hmem
        rcases List.mem_cons.mp hmem with h2 | h2
        · exact hc h2.symm
        · exact ih l (by rw [hr]; exact List.mem_cons_self l ls) h2
      · exact ih L (by rw [hr]; exact List.mem_cons_of_mem l h)

/-- Joining undoes splitting. -/
theorem joinLines_splitLines : ∀ (s : List Char), joinLines (splitLines s) = s := by
  intro s
  induction s with
  | nil => rfl
  | cons c rest ih =>
    unfold splitLines at ih ⊢
    obtain ⟨l, ls, hr⟩ : ∃ l ls, splitOnChar '\n' rest = l :: ls := by
      cases h : splitOnChar '\n' rest with
      | nil => exact absurd h (splitOnChar_ne_nil '\n' rest)
      | cons l ls => exact ⟨l, ls, rfl⟩
    by_cases hc : c = '\n'
    · rw [splitOnChar_cons, if_pos hc, hr]
      show joinLines ([] :: l :: ls) = c :: rest
      rw [hc]
      show '\n' :: joinLines (l :: ls) = '\n' :: rest
      rw [hr] at ih
      rw [ih]
    · rw [splitOnChar_cons_of_ne '\n' c rest l ls hc hr]
      rw [hr] at ih
      cases ls with
      | nil =>
        show c :: l = c :: rest
        rw [show joinLines [l] = l from rfl] at ih
        rw [ih]
      | cons l2 ls2 =>
        show (c :: l) ++ '\n' :: joinLines (l2 :: ls2) = c :: rest
        have : l ++ '\n' :: joinLines (l2 :: ls2) = rest := ih
        rw [List.cons_append, this]

/-- A newline-free text is a single line. -/
theorem splitLines_of_not_mem (l : List Char) (hl : '\n' ∉ l) :
    splitLines l = [l] := by
  induction l with
  | nil => rfl
  | cons c rest ih =>
    have hc : ¬ c = '\n' := fun h => hl (by simp [h])
    have hrest : '\n' ∉ rest := fun h => hl (List.mem_cons_of_mem c h)
    unfold splitLines at ih ⊢
    exact splitOnChar_cons_of_ne '\n' c rest rest [] hc (ih hrest)

/-- Splitting after a newline-free first line peels it off. -/
theorem splitLines_append_newline (l z : List Char) (hl : '\n' ∉ l) :
    splitLines (l ++ '\n' :: z) = l :: splitLines z := by
  induction l with
  | nil =>
    unfold splitLines
    rw [List.nil_append, splitOnChar_cons, if_pos rfl]
  | cons c rest ih =>
    have hc : ¬ c = '\n' := fun h => hl (by simp [h])
    have hrest : '\n' ∉ rest := fun h => hl (List.mem_cons_of_mem c h)
    unfold splitLines at ih ⊢
    rw [List.cons_append]
    exact splitOnChar_cons_of_ne '\n' c (rest ++ '\n' :: z) rest (splitLines z) hc
      (ih hrest)

/-- Splitting undoes joining on a nonempty list of newline-free lines. -/
theorem splitLines_joinLines :
    ∀ (ls : List (List Char)), ls ≠ [] → (∀ l ∈ ls, '\n' ∉ l) →
      splitLines (joinLines ls) = ls := by
  intro ls
  induction ls with
  | nil => intro h; exact absurd rfl h
  | cons l ls2 ih =>
    intro _ hnl
    cases ls2 with
    | nil =>
      show splitLines l = [l]
      exact splitLines_of_not_mem l (hnl l (List.mem_cons_self l []))
    | cons l2 ls3 =>
      show splitLines (l ++ '\n' :: joinLines (l2 :: ls3)) = l :: l2 :: ls3
      rw [splitLines_append_newline l (joinLines (l2 :: ls3))
        (hnl l (List.mem_cons_self l (l2 :: ls3)))]
      rw [ih (by simp) (fun x hx => hnl x (List.mem_cons_of_mem l hx))]

/-! Whitespace trims of lines. -/

/-- `WsTrim l0 l` states that `l` is `l0` with some whitespace removed from
both ends. -/
def WsTrim (l0 l : List Char) : Prop :=
  ∃ p q, l0 = p ++ l ++ q ∧ (∀ c ∈ p, pyIsSpace c = true) ∧
    (∀ c ∈ q, pyIsSpace c = true)

theorem wsTrim_refl (l : List Char) : WsTrim l l :=
  ⟨[], [], by simp, by simp, by simp⟩

theorem wsTrim_trans {a b c : List Char} (h1 : WsTrim a b) (h2 : WsTrim b c) :
    WsTrim a c := by
  obtain ⟨p1, q1, he1, hp1, hq1⟩ := h1
  obtain ⟨p2, q2, he2, hp2, hq2⟩ := h2
  refine ⟨p1 ++ p2, q2 ++ q1, ?_, ?_, ?_⟩
  · rw [he1, he2]
    simp [List.append_assoc]
  · intro x hx
    rcases List.mem_append.mp hx with h | h
    · exact hp1 x h
    · exact hp2 x h
  · intro x hx
    rcases List.mem_append.mp hx with h | h
    · exact hq2 x h
    · exact hq1 x h

/-- Append a character to the last line of a nonempty line list. -/
def appendToLast (c : Char) : List (List Char) → List (List Char)
  | [] => [[c]]
  | [l] => [l ++ [c]]
  | l :: ls => l :: appendToLast c ls

theorem appendToLast_cons_cons (c : Char) (l l2 : List Char)
    (ls : List (List Char)) :
    appendToLast c (l :: l2 :: ls) = l :: appendToLast c (l2 :: ls) := by
  rfl

/-- Splitting after appending a newline appends one empty line. -/
theorem splitLines_append_nl :
    ∀ (a : List Char), splitLines (a ++ ['\n']) = splitLines a ++ [[]] := by
  intro a
  induction a with
  | nil =>
    unfold splitLines
    rw [List.nil_append, splitOnChar_cons, if_pos rfl]
    rfl
  | cons d a2 ih =>
    by_cases hd : d = '\n'
    · subst hd
      show splitLines ('\n' :: (a2 ++ ['\n'])) = _
      unfold splitLines at ih ⊢
      rw [splitOnChar_cons, if_pos rfl, ih, splitOnChar_cons, if_pos rfl]
      rfl
    · obtain ⟨l, ls, hr⟩ : ∃ l ls, splitOnChar '\n' a2 = l :: ls := by
        cases h : splitOnChar '\n' a2 with
        | nil => exact absurd h (splitOnChar_ne_nil '\n' a2)
        | cons l ls => exact ⟨l, ls, rfl⟩
      unfold splitLines at ih ⊢
      rw [hr] at ih
      rw [List.cons_append]
      rw [splitOnChar_cons_of_ne '\n' d (a2 ++ ['\n']) l (ls ++ [[]]) hd
        (by rw [ih]; rfl)]
      rw [splitOnChar_cons_of_ne '\n' d a2 l ls hd hr]
      rfl

/-- Splitting after appending a non-newline character extends the last
line. -/
theorem splitLines_append_nonl (c : Char) (hc : ¬ c = '\n') :
    ∀ (a : List Char), splitLines (a ++ [c]) = appendToLast c (splitLines a) := by
  intro a
  induction a with
  | nil =>
    unfold splitLines
    rw [List.nil_append, splitOnChar_cons, if_neg hc]
    rfl
  | cons d a2 ih =>
    obtain ⟨l, ls, hr⟩ : ∃ l ls, splitOnChar '\n' a2 = l :: ls := by
      cases h : splitOnChar '\n' a2 with
      | nil => exact absurd h (splitOnChar_ne_nil '\n' a2)
      | cons l ls => exact ⟨l, ls, rfl⟩
    by_cases hd : d = '\n'
    · subst hd
      show splitLines ('\n' :: (a2 ++ [c])) = _
      unfold splitLines at ih ⊢
      rw [splitOnChar_cons, if_pos rfl, ih, hr, splitOnChar_cons, if_pos rfl, hr]
      rfl
    · unfold splitLines at ih ⊢
      rw [hr] at ih
      rw [List.cons_append]
      cases ls with
      | nil =>
        rw [splitOnChar_cons_of_ne '\n' d (a2 ++ [c]) (l ++ [c]) [] hd
          (by rw [ih]; rfl)]
        rw [splitOnChar_cons_of_ne '\n' d a2 l [] hd hr]
        show [(d :: l) ++ [c]] = [(d :: l) ++ [c]]
        rfl
      | cons l2 ls2 =>
        rw [appendToLast_cons_cons] at ih
        rw [splitOnChar_cons_of_ne '\n' d (a2 ++ [c]) l
          (appendToLast c (l2 :: ls2)) hd (by rw [ih])]
        rw [splitOnChar_cons_of_ne '\n' d a2 l (l2 :: ls2) hd hr]
        rw [appendToLast_cons_cons]

/-- Every element of a line list reappears in `appendToLast`, possibly with
the character appended. -/
theorem mem_appendToLast (c : Char) :
    ∀ (X : List (List Char)) (L : List Char), L ∈ X →
      L ∈ appendToLast c X ∨ L ++ [c] ∈ appendToLast c X := by
  intro X
  induction X with
  | nil => intro L hL; simp at hL
  | cons l X2 ih =>
    intro L hL
    cases X2 with
    | nil =>
      right
      rcases List.mem_cons.mp hL with h | h
      · subst h
        show L ++ [c] ∈ [L ++ [c]]
        simp
      · simp at h
    | cons l2 X3 =>
      rw [appendToLast_cons_cons]
      rcases List.mem_cons.mp hL with h | h
      · left
        subst h
        exact List.mem_cons_self L (appendToLast c (l2 :: X3))
      · rcases ih L h with h2 | h2
        · exact Or.inl (List.mem_cons_of_mem l h2)
        · exact Or.inr (List.mem_cons_of_mem l h2)

/-- Appending one whitespace character: each line of the original text is a
whitespace trim of a line of the extended text. -/
theorem splitLines_trim_single (c : Char) (hc : pyIsSpace c = true)
    (a : List Char) :
    ∀ L ∈ splitLines a, ∃ L0 ∈ splitLines (a ++ [c]), WsTrim L0 L := by
  intro L hL
  by_cases hnl : c = '\n'
  · subst hnl
    rw [splitLines_append_nl a]
    exact ⟨L, List.mem_append_left _ hL, wsTrim_refl L⟩
  · rw [splitLines_append_nonl c hnl a]
    rcases mem_appendToLast c (splitLines a) L hL with h | h
    · exact ⟨L, h, wsTrim_refl L⟩
    · refine ⟨L ++ [c], h, [], [c], by simp, by simp, ?_⟩
      intro x hx
      simp at hx
      rw [hx]
      exact hc

/-- Appending trailing whitespace: each line of the original text is a
whitespace trim of a line of the extended text. -/
theorem splitLines_trim_append_ws :
    ∀ (w a : List Char), (∀ c ∈ w, pyIsSpace c = true) →
      ∀ L ∈ splitLines a, ∃ L0 ∈ splitLines (a ++ w), WsTrim L0 L := by
  intro w
  induction w with
  | nil =>
    intro a _ L hL
    exact ⟨L, by simpa using hL, wsTrim_refl L⟩
  | cons c w2 ih =>
    intro a hw L hL
    have hc : pyIsSpace c = true := hw c (List.mem_cons_self c w2)
    obtain ⟨L0, hL0, ht0⟩ := splitLines_trim_single c hc a L hL
    obtain ⟨L1, hL1, ht1⟩ :=
      ih (a ++ [c]) (fun x hx => hw x (List.mem_cons_of_mem c hx)) L0 hL0
    refine ⟨L1, ?_, wsTrim_trans ht1 ht0⟩
    rw [List.append_assoc] at hL1
    simpa using hL1

/-- Dropping leading whitespace: each line of the result is a whitespace
trim of a line of the original text. -/
theorem splitLines_trim_dropWhile :
    ∀ (s : List Char), ∀ L ∈ splitLines (s.dropWhile pyIsSpace),
      ∃ L0 ∈ splitLines s, WsTrim L0 L := by
  intro s
  induction s with
  | nil => intro L hL; exact ⟨L, hL, wsTrim_refl L⟩
  | cons c s2 ih =>
    by_cases hc : pyIsSpace c = true
    · rw [List.dropWhile_cons_of_pos hc]
      intro L hL
      obtain ⟨L0, hL0, ht⟩ := ih L hL
      obtain ⟨l, ls, hr⟩ : ∃ l ls, splitOnChar '\n' s2 = l :: ls := by
        cases h : splitOnChar '\n' s2 with
        | nil => exact absurd h (splitOnChar_ne_nil '\n' s2)
        | cons l ls => exact ⟨l, ls, rfl⟩
      by_cases hnl : c = '\n'
      · refine ⟨L0, ?_, ht⟩
        show L0 ∈ splitLines (c :: s2)
        unfold splitLines
        rw [splitOnChar_cons, if_pos hnl]
        exact List.mem_cons_of_mem [] hL0
      · have hsplit : splitLines (c :: s2) = (c :: l) :: ls :=
          splitOnChar_cons_of_ne '\n' c s2 l ls hnl hr
        unfold splitLines at hL0
        rw [hr] at hL0
        rcases List.mem_cons.mp hL0 with h | h
        · subst h
          refine ⟨c :: L0, ?_, wsTrim_trans ?_ ht⟩
          · rw [hsplit]
            exact List.mem_cons_self (c :: L0) ls
          · refine ⟨[c], [], by simp, ?_, by simp⟩
            intro x hx
            simp at hx
            rw [hx]
            exact hc
        · refine ⟨L0, ?_, ht⟩
          rw [hsplit]
          exact List.mem_cons_of_mem (c :: l) h
    · rw [List.dropWhile_cons_of_neg (by simpa using hc)]
      intro L hL
      exact ⟨L, hL, wsTrim_refl L⟩

/-- `pyStrip` written with the library's right-dropping operation. -/
theorem pyStrip_eq_rdropWhile (s : List Char) :
    pyStrip s = List.rdropWhile pyIsSpace (s.dropWhile pyIsSpace) := by
  rfl

/-- Every line of the stripped text is a whitespace trim of a line of the
original text. -/
theorem splitLines_trim_pyStrip (s : List Char) :
    ∀ L ∈ splitLines (pyStrip s), ∃ L0 ∈ splitLines s, WsTrim L0 L := by
  intro L hL
  rw [pyStrip_eq_rdropWhile] at hL
  set u := s.dropWhile pyIsSpace with hu
  have hdecomp : List.rdropWhile pyIsSpace u ++ List.rtakeWhile pyIsSpace u = u := by
    rw [List.rdropWhile, List.rtakeWhile, ← List.reverse_append,
      List.takeWhile_append_dropWhile, List.reverse_reverse]
  have hws : ∀ c ∈ List.rtakeWhile pyIsSpace u, pyIsSpace c = true := by
    intro c hcm
    exact List.mem_rtakeWhile_imp hcm
  obtain ⟨M, hM, htM⟩ :=
    splitLines_trim_append_ws (List.rtakeWhile pyIsSpace u)
      (List.rdropWhile pyIsSpace u) hws L hL
  rw [hdecomp] at hM
  obtain ⟨N, hN, htN⟩ := splitLines_trim_dropWhile s M hM
  exact ⟨N, hN, wsTrim_trans htN htM⟩

/-- The head of a `dropWhile` result fails the dropped predicate. -/
theorem dropWhile_head_false {α : Type} (p : α → Bool) :
    ∀ (l : List α) (x : α) (xs : List α), l.dropWhile p = x :: xs →
      p x = false := by
  intro l
  induction l with
  | nil => intro x xs h; exact absurd h (by simp)
  | cons c l2 ih =>
    intro x xs h
    by_cases hc : p c = true
    · rw [List.dropWhile_cons_of_pos hc] at h
      exact ih x xs h
    · rw [List.dropWhile_cons_of_neg (by simpa using hc)] at h
      cases h
      simpa using hc

/-- Stripping is idempotent. -/
theorem pyStrip_idempotent (s : List Char) : pyStrip (pyStrip s) = pyStrip s := by
  rw [pyStrip_eq_rdropWhile, pyStrip_eq_rdropWhile]
  set u := s.dropWhile pyIsSpace with hu
  have hself : (List.rdropWhile pyIsSpace u).dropWhile pyIsSpace =
      List.rdropWhile pyIsSpace u := by
    cases hE : List.rdropWhile pyIsSpace u with
    | nil => rfl
    | cons x xs =>
      have ht : List.rdropWhile pyIsSpace u ++ List.rtakeWhile pyIsSpace u = u := by
        rw [List.rdropWhile, List.rtakeWhile, ← List.reverse_append,
          List.takeWhile_append_dropWhile, List.reverse_reverse]
      rw [hE] at ht
      have hu2 : s.dropWhile pyIsSpace = x :: (xs ++ List.rtakeWhile pyIsSpace u) := by
        have hux : u = x :: (xs ++ List.rtakeWhile pyIsSpace u) := by
          conv_lhs => rw [← ht]
          simp
        rw [← hu]
        exact hux
      have hx : pyIsSpace x = false :=
        dropWhile_head_false pyIsSpace s x (xs ++ List.rtakeWhile pyIsSpace u) hu2
      rw [List.dropWhile_cons_of_neg (by simp [hx])]
  rw [hself, List.rdropWhile_idempotent]

/-! Keep-conditions survive whitespace trims. -/

/-- Lowercasing preserves the trim decomposition as an infix. -/
theorem pyLower_sub_of_wsTrim {L0 L : List Char} (h : WsTrim L0 L) :
    pyLower L <:+: pyLower L0 := by
  obtain ⟨p, q, he, _, _⟩ := h
  refine ⟨p.map Char.toLower, q.map Char.toLower, ?_⟩
  rw [he]
  unfold pyLower
  simp [List.map_append]

/-- A line whose untrimmed original passes the display meta test still
passes it: trimming whitespace cannot create a blocked phrase. -/
theorem isDisplayMeta_false_of_wsTrim {L0 L : List Char} (h : WsTrim L0 L)
    (h0 : isDisplayMeta L0 = false) : isDisplayMeta L = false := by
  by_contra hcon
  simp only [Bool.not_eq_false] at hcon
  unfold isDisplayMeta at hcon h0
  obtain ⟨ph, hmem, hcont⟩ := List.any_eq_true.mp hcon
  have h1 : ph <:+: pyLower L := of_decide_eq_true hcont
  have h2 : ph <:+: pyLower L0 := h1.trans (pyLower_sub_of_wsTrim h)
  have : displayMetaPhrases.any (fun p => pyContains (pyLower L0) p) = true :=
    List.any_eq_true.mpr ⟨ph, hmem, decide_eq_true h2⟩
  rw [h0] at this
  exact Bool.false_ne_true this

/-- Stripping ignores an all-whitespace prefix. -/
theorem pyStrip_ws_left (p x : List Char) (hp : ∀ c ∈ p, pyIsSpace c = true) :
    pyStrip (p ++ x) = pyStrip x := by
  unfold pyStrip
  rw [List.dropWhile_append_of_pos hp]

/-- `rdropWhile` ignores an all-satisfying suffix. -/
theorem rdropWhile_append_pos {α : Type} (p : α → Bool) (l w : List α)
    (hw : ∀ a ∈ w, p a = true) :
    List.rdropWhile p (l ++ w) = List.rdropWhile p l := by
  unfold List.rdropWhile
  rw [List.reverse_append, List.dropWhile_append_of_pos
    (fun a ha => hw a (List.mem_reverse.mp ha))]

/-- Stripping ignores an all-whitespace suffix. -/
theorem pyStrip_ws_right (x q : List Char) (hq : ∀ c ∈ q, pyIsSpace c = true) :
    pyStrip (x ++ q) = pyStrip x := by
  rw [pyStrip_eq_rdropWhile, pyStrip_eq_rdropWhile]
  by_cases hE : x.dropWhile pyIsSpace = []
  · have hx : ∀ c ∈ x, pyIsSpace c = true := List.dropWhile_eq_nil_iff.mp hE
    have h2 : (x ++ q).dropWhile pyIsSpace = [] := by
      rw [List.dropWhile_append_of_pos hx]
      exact List.dropWhile_eq_nil_iff.mpr hq
    rw [hE, h2]
  · have h2 : (x ++ q).dropWhile pyIsSpace = x.dropWhile pyIsSpace ++ q := by
      rw [List.dropWhile_append]
      simp only [List.isEmpty_iff]
      rw [if_neg hE]
    rw [h2]
    exact rdropWhile_append_pos pyIsSpace (x.dropWhile pyIsSpace) q hq

/-- Trimmed lines strip to the same text. -/
theorem pyStrip_eq_of_wsTrim {L0 L : List Char} (h : WsTrim L0 L) :
    pyStrip L0 = pyStrip L := by
  obtain ⟨p, q, he, hp, hq⟩ := h
  rw [he, List.append_assoc, pyStrip_ws_left p (L ++ q) hp,
    pyStrip_ws_right L q hq]

/-- Trimmed lines agree on the separator test. -/
theorem isSeparator_eq_of_wsTrim {L0 L : List Char} (h : WsTrim L0 L) :
    isSeparator L = isSeparator L0 := by
  unfold isSeparator
  rw [pyStrip_eq_of_wsTrim h]

/-! The display filter: membership and fixed points. -/

/-- Lines surviving the display filter come from the input and pass both
keep tests. -/
theorem mem_displayCleanLines :
    ∀ (ls : List (List Char)) (skip : Bool) (L : List Char),
      L ∈ displayCleanLines skip ls →
      L ∈ ls ∧ isDisplayMeta L = false ∧ isSeparator L = false := by
  intro ls
  induction ls with
  | nil =>
    intro skip L h
    simp [displayCleanLines] at h
  | cons line rest ih =>
    intro skip L h
    by_cases hm : isDisplayMeta line = true
    · rw [show displayCleanLines skip (line :: rest) = displayCleanLines true rest
        by simp [displayCleanLines, hm]] at h
      obtain ⟨h1, h2, h3⟩ := ih true L h
      exact ⟨List.mem_cons_of_mem line h1, h2, h3⟩
    · simp only [Bool.not_eq_true] at hm
      by_cases hs : isSeparator line = true
      · rw [show displayCleanLines skip (line :: rest) = displayCleanLines skip rest
          by simp [displayCleanLines, hm, hs]] at h
        obtain ⟨h1, h2, h3⟩ := ih skip L h
        exact ⟨List.mem_cons_of_mem line h1, h2, h3⟩
      · simp only [Bool.not_eq_true] at hs
        by_cases hb : (skip && decide (pyStrip line = [])) = true
        · rw [show displayCleanLines skip (line :: rest) = displayCleanLines false rest
            by simp [displayCleanLines, hm, hs, hb]] at h
          obtain ⟨h1, h2, h3⟩ := ih false L h
          exact ⟨List.mem_cons_of_mem line h1, h2, h3⟩
        · simp only [Bool.not_eq_true] at hb
          rw [show displayCleanLines skip (line :: rest) =
              line :: displayCleanLines false rest
            by simp [displayCleanLines, hm, hs, hb]] at h
          rcases List.mem_cons.mp h with h1 | h1
          · subst h1
            exact ⟨List.mem_cons_self L rest, hm, hs⟩
          · obtain ⟨h2, h3, h4⟩ := ih false L h1
            exact ⟨List.mem_cons_of_mem line h2, h3, h4⟩

/-- The display filter is the identity on a line list whose lines all pass
both keep tests. -/
theorem displayCleanLines_eq_self :
    ∀ (ls : List (List Char)),
      (∀ L ∈ ls, isDisplayMeta L = false ∧ isSeparator L = false) →
      displayCleanLines false ls = ls := by
  intro ls
  induction ls with
  | nil => intro _; rfl
  | cons line rest ih =>
    intro hk
    obtain ⟨hm, hs⟩ := hk line (List.mem_cons_self line rest)
    have : displayCleanLines false (line :: rest) =
        line :: displayCleanLines false rest := by
      simp [displayCleanLines, hm, hs]
    rw [this, ih (fun L hL => hk L (List.mem_cons_of_mem line hL))]

/-- C6: the display sanitizer is idempotent — sanitizing an already
sanitized article changes nothing, because every surviving line still
passes the phrase and separator tests after the final strip, and stripping
is itself idempotent. -/
theorem clean_article_for_display_idempotent (x : List Char) :
    clean_article_for_display (clean_article_for_display x) =
      clean_article_for_display x := by
  unfold clean_article_for_display
  set z := joinLines (displayCleanLines false (splitLines x)) with hz
  have hkeep : ∀ L ∈ splitLines (pyStrip z),
      isDisplayMeta L = false ∧ isSeparator L = false := by
    intro L hL
    by_cases hnil : displayCleanLines false (splitLines x) = []
    · have hz2 : splitLines (pyStrip z) = [[]] := by
        rw [hz, hnil]
        rfl
      rw [hz2] at hL
      rcases List.mem_cons.mp hL with h | h
      · subst h
        constructor
        · decide
        · decide
      · simp at h
    · obtain ⟨N, hN, htN⟩ := splitLines_trim_pyStrip z L hL
      have hlines : splitLines z = displayCleanLines false (splitLines x) := by
        rw [hz]
        apply splitLines_joinLines _ hnil
        intro l hl
        exact not_mem_of_mem_splitOnChar '\n' x l
          (mem_displayCleanLines (splitLines x) false l hl).1
      rw [hlines] at hN
      obtain ⟨_, hmN, hsN⟩ := mem_displayCleanLines (splitLines x) false N hN
      refine ⟨isDisplayMeta_false_of_wsTrim htN hmN, ?_⟩
      rw [isSeparator_eq_of_wsTrim htN]
      exact hsN
  rw [displayCleanLines_eq_self _ hkeep, joinLines_splitLines,
    pyStrip_idempotent]

end BlogWriter
